import Mathlib

/-!
Verification of the filename-formatting engine of `filenamefmt` (src/main.rs).

Strings are modelled as `List Char`.  The source's `char::is_uppercase`,
`to_lowercase().next()` and `to_uppercase().next()` are modelled by
`Char.isUpper`, `Char.toLower` and `Char.toUpper` (the basic-latin case maps).

The filesystem-dependent `is_exe_or_package(path, config)` (main.rs:192-217)
performs stat calls; its boolean outcome is passed to `format_filename` as an
explicit argument `isExePkg`.  Likewise `get_timestamp_prefix` (main.rs:153-156)
reads the wall clock; the UTC calendar date it observes is passed as explicit
numeric arguments `y m d`.
-/

/-- Embedding of Rust's `str::split` with a character predicate (used by
`to_camel_case` via `split(|c| ...)` and by `matches_pattern` via
`split('*')`, main.rs:245 and main.rs:223): splitting an empty string
yields one empty piece, and each matching character ends the current piece. -/
def splitP (p : Char → Bool) : List Char → List (List Char)
  | [] => [[]]
  | c :: rest =>
    let r := splitP p rest
    if p c then [] :: r else (c :: r.headI) :: r.tail

/-- Word separators of `to_camel_case` (main.rs:245): space, underscore, hyphen. -/
def isWordSep (c : Char) : Bool := c == ' ' || c == '_' || c == '-'

/-- Characters `to_snake_case` normalizes away (main.rs:276): space and hyphen. -/
def snakeDrop (c : Char) : Bool := c == ' ' || c == '-'

/-- Characters `to_kebab_case` normalizes away (main.rs:298): space and underscore. -/
def kebabDrop (c : Char) : Bool := c == ' ' || c == '_'

/-- Embedding of the guarded separator push shared by `to_snake_case` and
`to_kebab_case` (main.rs:272-274 and main.rs:294-296):
`if !result.is_empty() && !result.ends_with(sep) { result.push(sep) }`. -/
def sepPush (sep : Char) (r : List Char) : List Char :=
  if r ≠ [] ∧ r.getLast? ≠ some sep then r ++ [sep] else r

/-- Embedding of one iteration of the scanning loop shared by `to_snake_case`
(main.rs:270-283) and `to_kebab_case` (main.rs:292-305), parameterized by the
separator it inserts and the character class it drops. -/
def caseStep (sep : Char) (isDrop : Char → Bool) (r : List Char) (ch : Char) : List Char :=
  if ch.isUpper then sepPush sep r ++ [ch.toLower]
  else if isDrop ch then sepPush sep r
  else r ++ [ch]

/-- Embedding of `to_snake_case` (main.rs:266-286). -/
def to_snake_case (s : List Char) : List Char := s.foldl (caseStep '_' snakeDrop) []

/-- Embedding of `to_kebab_case` (main.rs:288-308). -/
def to_kebab_case (s : List Char) : List Char := s.foldl (caseStep '-' kebabDrop) []

/-- Embedding of the word capitalization of `to_camel_case` (main.rs:255-259):
upper-case the first character, keep the rest verbatim. -/
def capWord : List Char → List Char
  | [] => []
  | c :: rest => c.toUpper :: rest

/-- Embedding of the indexed word loop of `to_camel_case` (main.rs:248-261):
empty words are skipped (but still advance the index), the word at index 0 is
lower-cased entirely, every later word is capitalized. -/
def camelWords : Nat → List (List Char) → List Char
  | _, [] => []
  | i, w :: ws =>
    (if w = [] then [] else if i = 0 then w.map Char.toLower else capWord w) ++
      camelWords (i + 1) ws

/-- Embedding of `to_camel_case` (main.rs:244-264). -/
def to_camel_case (s : List Char) : List Char := camelWords 0 (splitP isWordSep s)

/-- Embedding of Rust's `str::contains` with a string pattern (main.rs:227,
main.rs:232): substring containment, true for the empty pattern. -/
def strContains (s pat : List Char) : Bool :=
  pat.isPrefixOf s ||
    match s with
    | [] => false
    | _ :: t => strContains t pat

/-- Embedding of `matches_pattern` (main.rs:219-234): `split('*')` yields
exactly 2 parts for one wildcard (then test starts-with/ends-with), 1 part is
impossible when a `*` is present, anything else is a non-match; patterns
without `*` are substring tests. -/
def matches_pattern (name pat : List Char) : Bool :=
  if pat.contains '*' then
    let parts := splitP (fun c => c == '*') pat
    if parts.length = 2 then
      (parts.getD 0 []).isPrefixOf name && (parts.getD 1 []).isSuffixOf name
    else if parts.length = 1 then
      strContains name (parts.getD 0 [])
    else false
  else
    strContains name pat

/-- Modelled from the spec (§4.2), for comparison with `matches_pattern`:
no wildcard means substring containment; exactly one wildcard splits the
pattern at the `*` into a front part and a back part, matching iff the name
starts with the former and ends with the latter; two or more wildcards never
match. -/
def matchesPatternSpec (name pat : List Char) : Bool :=
  if pat.count '*' = 0 then
    strContains name pat
  else if pat.count '*' = 1 then
    (pat.takeWhile (fun c => !(c == '*'))).isPrefixOf name &&
      ((pat.dropWhile (fun c => !(c == '*'))).tail).isSuffixOf name
  else false

/-- Embedding of `NamingStyle` (main.rs:42-50). -/
inductive NamingStyle where
  | CamelCase : NamingStyle
  | SnakeCase : NamingStyle
  | KebabCase : NamingStyle
deriving DecidableEq

/-- Embedding of `Behavior` (main.rs:36-40). -/
structure Behavior where
  pattern : List Char
  style : NamingStyle
deriving DecidableEq

/-- Embedding of `Config` (main.rs:24-34).  The `detection` rules are consumed
only by the filesystem probe `is_exe_or_package`, whose boolean outcome is an
explicit argument of `format_filename` here, so they carry no further data. -/
structure Config where
  replace_spaces : Bool
  behaviors : List Behavior
deriving DecidableEq

/-- Embedding of `apply_style` (main.rs:236-242). -/
def apply_style (name : List Char) : NamingStyle → List Char
  | NamingStyle.CamelCase => to_camel_case name
  | NamingStyle.SnakeCase => to_snake_case name
  | NamingStyle.KebabCase => to_kebab_case name

/-- Embedding of the behavior loop of `format_filename` (main.rs:166-171):
the first behavior whose pattern matches is applied and the loop breaks. -/
def applyBehaviors (name : List Char) : List Behavior → List Char
  | [] => name
  | b :: bs =>
    if matches_pattern name b.pattern then apply_style name b.style
    else applyBehaviors name bs

/-- Embedding of `result.replace(' ', "_")` (main.rs:175). -/
def replaceSpaces (s : List Char) : List Char :=
  s.map (fun c => if c == ' ' then '_' else c)

/-- Decimal digit characters of a natural number, most significant first;
0 renders as "0", as in Rust's numeric formatting. -/
def natToChars (n : Nat) : List Char := Nat.toDigits 10 n

/-- Zero padding to a minimum width, as chrono's `%Y` (width 4), `%m` and
`%d` (width 2) render a date. -/
def padTo (k : Nat) (l : List Char) : List Char := List.replicate (k - l.length) '0' ++ l

/-- Embedding of `get_timestamp_prefix` (main.rs:153-156), with the observed
UTC year, month and day as explicit arguments: `format!("{}__", now.format("%Y_%m_%d"))`. -/
def get_timestamp_str (y m d : Nat) : List Char :=
  padTo 4 (natToChars y) ++ [ '_'] ++ padTo 2 (natToChars m) ++ [ '_'] ++
    padTo 2 (natToChars d) ++ [ '_', '_']

/-- Embedding of the base-name computation of `format_filename`
(main.rs:159-177): kebab-case for detected exe/package paths, otherwise the
behavior loop followed by unconditional space replacement when
`replace_spaces` is set. -/
def baseResult (name : List Char) (config : Config) (isExePkg : Bool) : List Char :=
  if isExePkg then to_kebab_case name
  else
    let r := applyBehaviors name config.behaviors
    if config.replace_spaces then replaceSpaces r else r

/-- Embedding of `format_filename` (main.rs:158-190).  `isExePkg` is the
outcome of `is_exe_or_package(path, config)`; `y m d` is the UTC date read by
`get_timestamp_prefix`. -/
def format_filename (name : List Char) (config : Config) (isExePkg : Bool)
    (timestamp : Bool) (y m d : Nat) : Option (List Char) :=
  let result := baseResult name config isExePkg
  let result2 := if timestamp then get_timestamp_str y m d ++ result else result
  if result2 ≠ name then some result2 else none

/-- Truth of "l has two adjacent occurrences of sep" is the negation of this
predicate (see `noDoubled_iff_strContains`). -/
def noDoubled (sep : Char) : List Char → Bool
  | a :: b :: t => !(a == sep && b == sep) && noDoubled sep (b :: t)
  | _ => true

/-- Invariant maintained by the scanning loop on a separator-free input: no
doubled separator and no leading separator. -/
def sepInv (sep : Char) (r : List Char) : Prop :=
  noDoubled sep r = true ∧ r.head? ≠ some sep

/-- Computed candidate name of `format_filename` (main.rs:159-183), before the
final comparison against the input (main.rs:185-189). -/
def fullResult (name : List Char) (config : Config) (isExePkg timestamp : Bool)
    (y m d : Nat) : List Char :=
  if timestamp then get_timestamp_str y m d ++ baseResult name config isExePkg
  else baseResult name config isExePkg

example : to_snake_case [ 'M', 'y', 'C', 'o', 'm', 'p', 'o', 'n', 'e', 'n', 't']
    = [ 'm', 'y', '_', 'c', 'o', 'm', 'p', 'o', 'n', 'e', 'n', 't'] := by decide

example : to_camel_case [ 's', 'o', 'm', 'e', '-', 't', 'h', 'i', 'n', 'g']
    = [ 's', 'o', 'm', 'e', 'T', 'h', 'i', 'n', 'g'] := by decide

example : to_kebab_case [ 'M', 'y', ' ', 'F', 'i', 'l', 'e', '.', 'j', 's']
    = [ 'm', 'y', '-', 'f', 'i', 'l', 'e', '.', 'j', 's'] := by decide

example : matches_pattern [ 'e', 'r', 'r', 'o', 'r', '.', 'l', 'o', 'g'] [ '*', '.', 'l', 'o', 'g'] = true := by decide

example : matches_pattern [ 'e', 'r', 'r', 'o', 'r', '.', 'l', 'o', 'g', 'g', 'e', 'r'] [ '*', '.', 'l', 'o', 'g'] = false := by decide

example : get_timestamp_str 2026 10 12
    = [ '2', '0', '2', '6', '_', '1', '0', '_', '1', '2', '_', '_'] := by decide

/-! Basic-latin character facts used throughout. -/

theorem char_toNat_ofNat (n : Nat) (h : n < 55296) : (Char.ofNat n).toNat = n := by
  have hv : n.isValidChar := Or.inl h
  rw [Char.ofNat, dif_pos hv]
  simp [Char.ofNatAux, Char.toNat, UInt32.toNat, BitVec.toNat_ofNatLt]

theorem char_isUpper_iff {c : Char} : c.isUpper = true ↔ (65 ≤ c.toNat ∧ c.toNat ≤ 90) := by
  simp [Char.isUpper, UInt32.le_def, BitVec.le_def, Char.toNat, UInt32.toNat]

theorem char_isDigit_iff {c : Char} : c.isDigit = true ↔ (48 ≤ c.toNat ∧ c.toNat ≤ 57) := by
  simp [Char.isDigit, UInt32.le_def, BitVec.le_def, Char.toNat, UInt32.toNat]

theorem char_toNat_inj {c d : Char} (h : c.toNat = d.toNat) : c = d :=
  Char.ext (UInt32.ext h)

theorem toNat_toLower_of_upper {c : Char} (h : c.isUpper = true) :
    (c.toLower).toNat = c.toNat + 32 := by
  obtain ⟨h1, h2⟩ := char_isUpper_iff.mp h
  rw [Char.toLower, if_pos ⟨h1, h2⟩]
  exact char_toNat_ofNat _ (by omega)

theorem toLower_eq_self_of_not_upper {c : Char} (h : c.isUpper = false) :
    c.toLower = c := by
  rw [Char.toLower]
  have : ¬ (65 ≤ c.toNat ∧ c.toNat ≤ 90) := fun hc => by
    rw [char_isUpper_iff.mpr hc] at h
    exact absurd h (by simp)
  rw [if_neg this]

theorem toNat_toLower_cases (c : Char) :
    (c.toLower).toNat = c.toNat ∨ (97 ≤ (c.toLower).toNat ∧ (c.toLower).toNat ≤ 122) := by
  by_cases h : c.isUpper = true
  · right
    have := toNat_toLower_of_upper h
    have hu := char_isUpper_iff.mp h
    omega
  · left
    rw [toLower_eq_self_of_not_upper (Bool.eq_false_iff.mpr h)]

theorem toNat_toUpper_of_lower {c : Char} (h : 97 ≤ c.toNat ∧ c.toNat ≤ 122) :
    (c.toUpper).toNat = c.toNat - 32 := by
  rw [Char.toUpper, if_pos h]
  exact char_toNat_ofNat _ (by omega)

theorem toNat_toUpper_cases (c : Char) :
    (c.toUpper).toNat = c.toNat ∨ (65 ≤ (c.toUpper).toNat ∧ (c.toUpper).toNat ≤ 90) := by
  by_cases h : 97 ≤ c.toNat ∧ c.toNat ≤ 122
  · right
    have := toNat_toUpper_of_lower h
    omega
  · left
    rw [Char.toUpper, if_neg h]

theorem isDigit_toLower (c : Char) : (c.toLower).isDigit = c.isDigit := by
  by_cases h : c.isUpper = true
  · have h1 := toNat_toLower_of_upper h
    have h2 := char_isUpper_iff.mp h
    have d1 : (c.toLower).isDigit = false := by
      by_contra hh
      have := char_isDigit_iff.mp (Bool.of_not_eq_false hh)
      omega
    have d2 : c.isDigit = false := by
      by_contra hh
      have := char_isDigit_iff.mp (Bool.of_not_eq_false hh)
      omega
    rw [d1, d2]
  · rw [toLower_eq_self_of_not_upper (Bool.eq_false_iff.mpr h)]

theorem isDigit_toUpper (c : Char) : (c.toUpper).isDigit = c.isDigit := by
  by_cases h : 97 ≤ c.toNat ∧ c.toNat ≤ 122
  · have h1 := toNat_toUpper_of_lower h
    have d1 : (c.toUpper).isDigit = false := by
      by_contra hh
      have := char_isDigit_iff.mp (Bool.of_not_eq_false hh)
      omega
    have d2 : c.isDigit = false := by
      by_contra hh
      have := char_isDigit_iff.mp (Bool.of_not_eq_false hh)
      omega
    rw [d1, d2]
  · rw [Char.toUpper, if_neg h]

theorem isUpper_toLower (c : Char) : (c.toLower).isUpper = false := by
  by_cases h : c.isUpper = true
  · have h1 := toNat_toLower_of_upper h
    have h2 := char_isUpper_iff.mp h
    by_contra hh
    have := char_isUpper_iff.mp (Bool.of_not_eq_false hh)
    omega
  · rw [toLower_eq_self_of_not_upper (Bool.eq_false_iff.mpr h)]
    exact Bool.eq_false_iff.mpr h

theorem toLower_beq_of_low {c d : Char} (hupper : c.isUpper = true)
    (hd : d.toNat < 97) : (c.toLower == d) = false := by
  have h1 := toNat_toLower_of_upper hupper
  have h2 := char_isUpper_iff.mp hupper
  rw [beq_eq_false_iff_ne]
  intro he
  rw [he] at h1
  omega

/-! Facts about the shared snake/kebab scanning loop. -/

theorem caseStep_plain {isDrop : Char → Bool} {ch : Char} (sep : Char) (r : List Char)
    (h1 : ch.isUpper = false) (h2 : isDrop ch = false) :
    caseStep sep isDrop r ch = r ++ [ch] := by
  simp [caseStep, h1, h2]

theorem foldl_caseStep_plain (sep : Char) (isDrop : Char → Bool) :
    ∀ (s acc : List Char), (∀ c ∈ s, c.isUpper = false ∧ isDrop c = false) →
      List.foldl (caseStep sep isDrop) acc s = acc ++ s := by
  intro s
  induction s with
  | nil => intro acc _; simp
  | cons c t ih =>
    intro acc hs
    obtain ⟨h1, h2⟩ := hs c (List.mem_cons_self c t)
    rw [List.foldl_cons, caseStep_plain sep acc h1 h2,
      ih (acc ++ [c]) (fun x hx => hs x (List.mem_cons_of_mem c hx))]
    simp

theorem mem_sepPush {sep : Char} {r : List Char} {c : Char} (h : c ∈ sepPush sep r) :
    c ∈ r ∨ c = sep := by
  rw [sepPush] at h
  by_cases hg : r ≠ [] ∧ r.getLast? ≠ some sep
  · rw [if_pos hg] at h
    rcases List.mem_append.mp h with h' | h'
    · exact Or.inl h'
    · exact Or.inr (List.mem_singleton.mp h')
  · rw [if_neg hg] at h
    exact Or.inl h

theorem mem_foldl_caseStep (sep : Char) (isDrop : Char → Bool)
    (hsep : sep.isUpper = false ∧ isDrop sep = false)
    (hlow : ∀ c : Char, c.isUpper = true → isDrop c.toLower = false) :
    ∀ (s acc : List Char), (∀ c ∈ acc, c.isUpper = false ∧ isDrop c = false) →
      ∀ c ∈ List.foldl (caseStep sep isDrop) acc s, c.isUpper = false ∧ isDrop c = false := by
  intro s
  induction s with
  | nil => intro acc hacc c hc; exact hacc c hc
  | cons ch t ih =>
    intro acc hacc c hc
    rw [List.foldl_cons] at hc
    refine ih (caseStep sep isDrop acc ch) ?_ c hc
    intro x hx
    rw [caseStep] at hx
    by_cases hu : ch.isUpper
    · rw [if_pos hu] at hx
      rcases List.mem_append.mp hx with h' | h'
      · rcases mem_sepPush h' with h'' | h''
        · exact hacc x h''
        · rw [h'']; exact hsep
      · rw [List.mem_singleton.mp h']
        exact ⟨isUpper_toLower ch, hlow ch hu⟩
    · rw [if_neg hu] at hx
      by_cases hd : isDrop ch
      · rw [if_pos hd] at hx
        rcases mem_sepPush hx with h'' | h''
        · exact hacc x h''
        · rw [h'']; exact hsep
      · rw [if_neg hd] at hx
        rcases List.mem_append.mp hx with h' | h'
        · exact hacc x h'
        · rw [List.mem_singleton.mp h']
          exact ⟨Bool.eq_false_iff.mpr hu, Bool.eq_false_iff.mpr hd⟩

theorem to_snake_case_chars {s : List Char} :
    ∀ c ∈ to_snake_case s, c.isUpper = false ∧ snakeDrop c = false := by
  refine mem_foldl_caseStep '_' snakeDrop ⟨by decide, by decide⟩ ?_ s [] (by simp)
  intro c hc
  rw [snakeDrop, toLower_beq_of_low hc (by decide), toLower_beq_of_low hc (by decide)]
  rfl

theorem to_kebab_case_chars {s : List Char} :
    ∀ c ∈ to_kebab_case s, c.isUpper = false ∧ kebabDrop c = false := by
  refine mem_foldl_caseStep '-' kebabDrop ⟨by decide, by decide⟩ ?_ s [] (by simp)
  intro c hc
  rw [kebabDrop, toLower_beq_of_low hc (by decide), toLower_beq_of_low hc (by decide)]
  rfl

theorem to_snake_case_fix {s : List Char}
    (h : ∀ c ∈ s, c.isUpper = false ∧ snakeDrop c = false) : to_snake_case s = s := by
  rw [to_snake_case, foldl_caseStep_plain '_' snakeDrop s [] h]
  simp

theorem to_kebab_case_fix {s : List Char}
    (h : ∀ c ∈ s, c.isUpper = false ∧ kebabDrop c = false) : to_kebab_case s = s := by
  rw [to_kebab_case, foldl_caseStep_plain '-' kebabDrop s [] h]
  simp

/-! Facts about word splitting and the camel-case word loop. -/

theorem beq_false_of_toNat_ne {c d : Char} (h : c.toNat ≠ d.toNat) : (c == d) = false :=
  beq_eq_false_iff_ne.mpr (fun he => h (congrArg Char.toNat he))

theorem splitP_ne_nil (p : Char → Bool) (l : List Char) : splitP p l ≠ [] := by
  cases l with
  | nil => simp [splitP]
  | cons c rest =>
    rw [splitP]
    by_cases h : p c
    · simp [h]
    · simp [h]

theorem mem_splitP_chars (p : Char → Bool) :
    ∀ (s : List Char), ∀ w ∈ splitP p s, ∀ c ∈ w, p c = false := by
  intro s
  induction s with
  | nil =>
    intro w hw c hc
    rw [splitP, List.mem_singleton] at hw
    rw [hw] at hc
    exact absurd hc (List.not_mem_nil c)
  | cons a rest ih =>
    intro w hw c hc
    rw [splitP] at hw
    by_cases h : p a
    · rw [if_pos h] at hw
      rcases List.mem_cons.mp hw with h' | h'
      · rw [h'] at hc; exact absurd hc (List.not_mem_nil c)
      · exact ih w h' c hc
    · rw [if_neg h] at hw
      obtain ⟨w0, ws, hr⟩ := List.exists_cons_of_ne_nil (splitP_ne_nil p rest)
      rw [hr] at hw
      simp only [List.headI, List.tail] at hw
      rcases List.mem_cons.mp hw with h' | h'
      · rw [h'] at hc
        rcases List.mem_cons.mp hc with h'' | h''
        · rw [h'']; exact Bool.eq_false_iff.mpr h
        · exact ih w0 (hr ▸ List.mem_cons_self w0 ws) c h''
      · exact ih w (hr ▸ List.mem_cons_of_mem w0 h') c hc

theorem isWordSep_toLower {c : Char} (h : isWordSep c = false) :
    isWordSep c.toLower = false := by
  rcases toNat_toLower_cases c with hc | hc
  · rw [char_toNat_inj hc]; exact h
  · have e1 : (' ' : Char).toNat = 32 := rfl
    have e2 : ('_' : Char).toNat = 95 := rfl
    have e3 : ('-' : Char).toNat = 45 := rfl
    rw [isWordSep, beq_false_of_toNat_ne (by omega), beq_false_of_toNat_ne (by omega),
      beq_false_of_toNat_ne (by omega)]
    rfl

theorem isWordSep_toUpper {c : Char} (h : isWordSep c = false) :
    isWordSep c.toUpper = false := by
  rcases toNat_toUpper_cases c with hc | hc
  · rw [char_toNat_inj hc]; exact h
  · have e1 : (' ' : Char).toNat = 32 := rfl
    have e2 : ('_' : Char).toNat = 95 := rfl
    have e3 : ('-' : Char).toNat = 45 := rfl
    rw [isWordSep, beq_false_of_toNat_ne (by omega), beq_false_of_toNat_ne (by omega),
      beq_false_of_toNat_ne (by omega)]
    rfl

theorem camelWords_chars :
    ∀ (ws : List (List Char)) (i : Nat), (∀ w ∈ ws, ∀ c ∈ w, isWordSep c = false) →
      ∀ c ∈ camelWords i ws, isWordSep c = false := by
  intro ws
  induction ws with
  | nil => intro i _ c hc; exact absurd hc (List.not_mem_nil c)
  | cons w t ih =>
    intro i hws c hc
    rw [camelWords] at hc
    rcases List.mem_append.mp hc with h' | h'
    · by_cases hw : w = []
      · rw [if_pos hw] at h'; exact absurd h' (List.not_mem_nil c)
      · rw [if_neg hw] at h'
        by_cases hi : i = 0
        · rw [if_pos hi] at h'
          obtain ⟨x, hx, hxc⟩ := List.mem_map.mp h'
          rw [← hxc]
          exact isWordSep_toLower (hws w (List.mem_cons_self w t) x hx)
        · rw [if_neg hi] at h'
          cases w with
          | nil => exact absurd rfl hw
          | cons c0 crest =>
            rw [capWord] at h'
            rcases List.mem_cons.mp h' with h'' | h''
            · rw [h'']
              exact isWordSep_toUpper
                (hws _ (List.mem_cons_self _ t) c0 (List.mem_cons_self c0 crest))
            · exact hws _ (List.mem_cons_self _ t) c (List.mem_cons_of_mem c0 h'')
    · exact ih (i + 1) (fun w' hw' => hws w' (List.mem_cons_of_mem w hw')) c h'

theorem to_camel_case_chars {s : List Char} :
    ∀ c ∈ to_camel_case s, isWordSep c = false :=
  camelWords_chars (splitP isWordSep s) 0 (mem_splitP_chars isWordSep s)

/-- C1 counterexample: `to_camel_case` is not idempotent.  On "a-b" one
application yields "aB", but a second application lower-cases the whole
(now single) first word, yielding "ab". -/
theorem c1_camel_counterexample :
    to_camel_case (to_camel_case [ 'a', '-', 'b']) ≠ to_camel_case [ 'a', '-', 'b'] ∧
    to_camel_case [ 'a', '-', 'b'] = [ 'a', 'B'] ∧
    to_camel_case [ 'a', 'B'] = [ 'a', 'b'] := by
  refine ⟨?_, by decide, by decide⟩
  decide

/-- C1 amended: `to_snake_case` and `to_kebab_case` are idempotent for every
string; `to_camel_case` is not (see the counterexample). -/
theorem c1_snake_kebab_idempotent (s : List Char) :
    to_snake_case (to_snake_case s) = to_snake_case s ∧
    to_kebab_case (to_kebab_case s) = to_kebab_case s :=
  ⟨to_snake_case_fix (fun c hc => to_snake_case_chars c hc),
   to_kebab_case_fix (fun c hc => to_kebab_case_chars c hc)⟩

/-- C9: outputs of `to_snake_case` contain no upper-case letter, no space and
no hyphen; outputs of `to_kebab_case` contain no upper-case letter, no space
and no underscore; outputs of `to_camel_case` contain no space, no underscore
and no hyphen. -/
theorem c9_output_alphabets (s : List Char) :
    (∀ c ∈ to_snake_case s, c.isUpper = false ∧ c ≠ ' ' ∧ c ≠ '-') ∧
    (∀ c ∈ to_kebab_case s, c.isUpper = false ∧ c ≠ ' ' ∧ c ≠ '_') ∧
    (∀ c ∈ to_camel_case s, c ≠ ' ' ∧ c ≠ '_' ∧ c ≠ '-') := by
  refine ⟨fun c hc => ?_, fun c hc => ?_, fun c hc => ?_⟩
  · obtain ⟨h1, h2⟩ := to_snake_case_chars c hc
    rw [snakeDrop] at h2
    simp only [Bool.or_eq_false_iff, beq_eq_false_iff_ne] at h2
    exact ⟨h1, h2.1, h2.2⟩
  · obtain ⟨h1, h2⟩ := to_kebab_case_chars c hc
    rw [kebabDrop] at h2
    simp only [Bool.or_eq_false_iff, beq_eq_false_iff_ne] at h2
    exact ⟨h1, h2.1, h2.2⟩
  · have h2 := to_camel_case_chars c hc
    rw [isWordSep] at h2
    simp only [Bool.or_eq_false_iff, beq_eq_false_iff_ne] at h2
    exact ⟨h2.1.1, h2.1.2, h2.2⟩

/-! Doubled-separator analysis for the snake/kebab loop. -/

theorem noDoubled_iff_strContains (sep : Char) :
    ∀ l : List Char, noDoubled sep l = true ↔ strContains l [sep, sep] = false := by
  intro l
  induction l with
  | nil => simp [noDoubled, strContains, List.isPrefixOf]
  | cons a t ih =>
    cases t with
    | nil => simp [noDoubled, strContains, List.isPrefixOf]
    | cons b t2 =>
      rw [noDoubled, strContains]
      simp only [List.isPrefixOf, Bool.and_eq_true, Bool.not_eq_true', Bool.or_eq_false_iff,
        Bool.and_eq_false_iff, beq_iff_eq, beq_eq_false_iff_ne, ih]
      constructor
      · intro ⟨h1, h2⟩
        refine ⟨?_, h2⟩
        rcases h1 with h' | h'
        · left; exact fun he => h' he.symm
        · right; left; exact fun he => h' he.symm
      · intro ⟨h1, h2⟩
        refine ⟨?_, h2⟩
        rcases h1 with h' | h'
        · left; exact fun he => h' he.symm
        · rcases h' with h'' | h''
          · right; exact fun he => h'' he.symm
          · exact absurd h'' (by simp)

theorem noDoubled_append (sep c : Char) :
    ∀ r : List Char,
      noDoubled sep (r ++ [c]) =
        (noDoubled sep r && !((r.getLast? == some sep) && (c == sep))) := by
  intro r
  induction r with
  | nil => simp [noDoubled]
  | cons a t ih =>
    cases t with
    | nil =>
      simp [noDoubled, List.getLast?]
    | cons b t2 =>
      rw [List.cons_append, List.cons_append]
      rw [noDoubled]
      rw [← List.cons_append]
      rw [ih]
      rw [noDoubled]
      rw [List.getLast?_cons_cons]
      rw [Bool.and_assoc]

theorem sepInv_append {sep c : Char} {r : List Char} (h : sepInv sep r) (hc : c ≠ sep) :
    sepInv sep (r ++ [c]) := by
  obtain ⟨h1, h2⟩ := h
  constructor
  · rw [noDoubled_append, h1, Bool.true_and]
    simp [beq_eq_false_iff_ne.mpr hc]
  · cases r with
    | nil =>
      simp only [List.nil_append, List.head?]
      intro he
      exact hc (Option.some_inj.mp he)
    | cons a t =>
      rw [List.cons_append, List.head?_cons]
      rw [List.head?_cons] at h2
      exact h2

theorem sepInv_sepPush {sep : Char} {r : List Char} (h : sepInv sep r) :
    sepInv sep (sepPush sep r) := by
  obtain ⟨h1, h2⟩ := h
  rw [sepPush]
  by_cases hg : r ≠ [] ∧ r.getLast? ≠ some sep
  · rw [if_pos hg]
    constructor
    · rw [noDoubled_append, h1, Bool.true_and]
      simp [hg.2]
    · cases r with
      | nil => exact absurd rfl hg.1
      | cons a t =>
        rw [List.cons_append, List.head?_cons]
        rw [List.head?_cons] at h2
        exact h2
  · rw [if_neg hg]
    exact ⟨h1, h2⟩

theorem sepInv_caseStep {sep ch : Char} {isDrop : Char → Bool} {r : List Char}
    (h : sepInv sep r) (hlow : ch.isUpper = true → ch.toLower ≠ sep) (hch : ch ≠ sep) :
    sepInv sep (caseStep sep isDrop r ch) := by
  rw [caseStep]
  by_cases hu : ch.isUpper
  · rw [if_pos hu]
    exact sepInv_append (sepInv_sepPush h) (hlow hu)
  · rw [if_neg hu]
    by_cases hd : isDrop ch
    · rw [if_pos hd]
      exact sepInv_sepPush h
    · rw [if_neg hd]
      exact sepInv_append h hch

theorem sepInv_foldl (sep : Char) (isDrop : Char → Bool)
    (hlow : ∀ c : Char, c.isUpper = true → c.toLower ≠ sep) :
    ∀ (s acc : List Char), (∀ c ∈ s, c ≠ sep) → sepInv sep acc →
      sepInv sep (List.foldl (caseStep sep isDrop) acc s) := by
  intro s
  induction s with
  | nil => intro acc _ h; exact h
  | cons ch t ih =>
    intro acc hs h
    rw [List.foldl_cons]
    exact ih _ (fun c hc => hs c (List.mem_cons_of_mem ch hc))
      (sepInv_caseStep h (hlow ch) (hs ch (List.mem_cons_self ch t)))

/-- C2 counterexample: `to_snake_case` passes pre-existing underscores through
unchanged, so on "__" its output is "__", which both contains two consecutive
underscores and begins with one; `to_kebab_case` likewise passes hyphens
through, with output "--" on "--". -/
theorem c2_counterexample :
    strContains (to_snake_case [ '_', '_']) [ '_', '_'] = true ∧
    (to_snake_case [ '_', '_']).head? = some '_' ∧
    strContains (to_kebab_case [ '-', '-']) [ '-', '-'] = true ∧
    (to_kebab_case [ '-', '-']).head? = some '-' := by
  decide

/-- C2 amended: for every string containing no underscore, the output of
`to_snake_case` never contains two consecutive underscores and never begins
with one; for every string containing no hyphen, the output of
`to_kebab_case` never contains two consecutive hyphens and never begins with
one.  (The restriction is forced by the counterexample: pre-existing
separator characters pass through the loop unchanged.) -/
theorem c2_no_doubled_no_leading (s : List Char) :
    ((∀ c ∈ s, c ≠ '_') →
      strContains (to_snake_case s) [ '_', '_'] = false ∧
        (to_snake_case s).head? ≠ some '_') ∧
    ((∀ c ∈ s, c ≠ '-') →
      strContains (to_kebab_case s) [ '-', '-'] = false ∧
        (to_kebab_case s).head? ≠ some '-') := by
  constructor
  · intro hs
    have hlow : ∀ c : Char, c.isUpper = true → c.toLower ≠ '_' := fun c hc =>
      beq_eq_false_iff_ne.mp (toLower_beq_of_low hc (by decide))
    have h := sepInv_foldl '_' snakeDrop hlow s [] hs ⟨rfl, by simp⟩
    exact ⟨(noDoubled_iff_strContains '_' _).mp h.1, h.2⟩
  · intro hs
    have hlow : ∀ c : Char, c.isUpper = true → c.toLower ≠ '-' := fun c hc =>
      beq_eq_false_iff_ne.mp (toLower_beq_of_low hc (by decide))
    have h := sepInv_foldl '-' kebabDrop hlow s [] hs ⟨rfl, by simp⟩
    exact ⟨(noDoubled_iff_strContains '-' _).mp h.1, h.2⟩

/-- C2 witness: the amended statement applied to the concrete input "A bC"
with a space, which contains neither an underscore nor a hyphen. -/
theorem c2_no_doubled_no_leading_witness :
    strContains (to_snake_case [ 'A', ' ', 'b', 'C']) [ '_', '_'] = false ∧
    (to_snake_case [ 'A', ' ', 'b', 'C']).head? ≠ some '_' ∧
    strContains (to_kebab_case [ 'A', ' ', 'b', 'C']) [ '-', '-'] = false ∧
    (to_kebab_case [ 'A', ' ', 'b', 'C']).head? ≠ some '-' := by
  obtain ⟨hs, hk⟩ := c2_no_doubled_no_leading [ 'A', ' ', 'b', 'C']
  have h1 := hs (by decide)
  have h2 := hk (by decide)
  exact ⟨h1.1, h1.2, h2.1, h2.2⟩

/-! Wildcard-count analysis of `matches_pattern`. -/

theorem splitP_length (p : Char → Bool) :
    ∀ l : List Char, (splitP p l).length = l.countP p + 1 := by
  intro l
  induction l with
  | nil => simp [splitP]
  | cons c rest ih =>
    rw [splitP]
    by_cases h : p c
    · rw [if_pos h]
      rw [List.length_cons, ih, List.countP_cons_of_pos _ _ h]
    · rw [if_neg h]
      obtain ⟨w, ws, hr⟩ := List.exists_cons_of_ne_nil (splitP_ne_nil p rest)
      rw [hr]
      simp only [List.headI, List.tail, List.length_cons]
      rw [List.countP_cons_of_neg _ _ h, ← ih, hr, List.length_cons]

theorem splitP_of_countP_zero (p : Char → Bool) :
    ∀ l : List Char, l.countP p = 0 → splitP p l = [l] := by
  intro l
  induction l with
  | nil => intro _; rfl
  | cons c rest ih =>
    intro h
    have hc : ¬ p c = true := by
      intro hc
      rw [List.countP_cons_of_pos _ _ hc] at h
      omega
    rw [List.countP_cons_of_neg _ _ hc] at h
    rw [splitP, if_neg hc, ih h]
    rfl

theorem splitP_of_countP_one (p : Char → Bool) :
    ∀ l : List Char, l.countP p = 1 →
      splitP p l = [l.takeWhile (fun c => !(p c)), (l.dropWhile (fun c => !(p c))).tail] := by
  intro l
  induction l with
  | nil => intro h; simp at h
  | cons c rest ih =>
    intro h
    by_cases hc : p c = true
    · rw [List.countP_cons_of_pos _ _ hc] at h
      have h0 : rest.countP p = 0 := by omega
      rw [splitP, if_pos hc, splitP_of_countP_zero p rest h0]
      rw [List.takeWhile_cons, List.dropWhile_cons]
      rw [hc]
      simp
    · rw [List.countP_cons_of_neg _ _ hc] at h
      rw [splitP, if_neg hc, ih h]
      rw [List.takeWhile_cons, List.dropWhile_cons]
      have : (!(p c)) = true := by simp [hc]
      rw [this]
      simp only [if_pos rfl]
      rfl

theorem count_star_eq_countP (pat : List Char) :
    pat.count '*' = pat.countP (fun c => c == '*') := rfl

theorem contains_star_iff (pat : List Char) :
    pat.contains '*' = true ↔ pat.count '*' ≠ 0 := by
  rw [List.contains, List.elem_iff]
  rw [count_star_eq_countP]
  constructor
  · intro hmem h0
    rw [List.countP_eq_zero] at h0
    exact h0 '*' hmem (by simp)
  · intro h0
    by_contra hmem
    apply h0
    rw [List.countP_eq_zero]
    intro a ha hp
    rw [beq_iff_eq] at hp
    exact hmem (hp ▸ ha)

/-- C6: `matches_pattern` agrees everywhere with the reference definition from
the spec: substring containment when the pattern has no `*`, a starts-with /
ends-with split at the `*` when it has exactly one, and a constant non-match
when it has two or more. -/
theorem c6_matches_pattern_eq_spec (name pat : List Char) :
    matches_pattern name pat = matchesPatternSpec name pat := by
  rw [matches_pattern, matchesPatternSpec]
  by_cases hc : pat.contains '*' = true
  · have hne := (contains_star_iff pat).mp hc
    rw [if_pos hc, if_neg hne]
    by_cases h1 : pat.count '*' = 1
    · rw [if_pos h1]
      rw [count_star_eq_countP] at h1
      rw [splitP_of_countP_one _ _ h1]
      simp only [List.length_cons, List.length_nil, List.getD]
      rfl
    · rw [if_neg h1]
      have hlen := splitP_length (fun c => c == '*') pat
      rw [← count_star_eq_countP] at hlen
      rw [if_neg (by omega : ¬ (splitP (fun c => c == '*') pat).length = 2)]
      rw [if_neg (by omega : ¬ (splitP (fun c => c == '*') pat).length = 1)]
  · have h0 : pat.count '*' = 0 := by
      by_contra h0
      exact hc ((contains_star_iff pat).mpr h0)
    rw [if_neg hc, if_pos h0]

theorem strContains_nil_pat (s : List Char) : strContains s [] = true := by
  cases s <;> simp [strContains, List.isPrefixOf]

/-- C10: a behavior with an empty pattern or with the lone-wildcard pattern
"*" matches every filename, the empty name included. -/
theorem c10_empty_and_star_match_all (name : List Char) :
    matches_pattern name [] = true ∧ matches_pattern name [ '*'] = true := by
  constructor
  · rw [matches_pattern]
    rw [if_neg (by decide : ¬ (([] : List Char).contains '*') = true)]
    exact strContains_nil_pat name
  · rw [matches_pattern]
    rw [if_pos (by decide : (([ '*'] : List Char).contains '*') = true)]
    have hsp : splitP (fun c => c == '*') [ '*'] = [[], []] := by decide
    rw [hsp]
    simp [List.isPrefixOf, List.isSuffixOf]

/-! Behavior dispatch in `format_filename`. -/

theorem baseResult_true_eq (name : List Char) (config : Config) :
    baseResult name config true = to_kebab_case name := rfl

theorem baseResult_false_eq (name : List Char) (config : Config) :
    baseResult name config false =
      (if config.replace_spaces then replaceSpaces (applyBehaviors name config.behaviors)
       else applyBehaviors name config.behaviors) := rfl

theorem applyBehaviors_eq_of_find? {name : List Char} :
    ∀ (bs : List Behavior) (b : Behavior),
      bs.find? (fun b => matches_pattern name b.pattern) = some b →
      applyBehaviors name bs = apply_style name b.style := by
  intro bs
  induction bs with
  | nil => intro b h; simp [List.find?] at h
  | cons b0 t ih =>
    intro b h
    by_cases hm : matches_pattern name b0.pattern = true
    · have hstep : List.find? (fun b => matches_pattern name b.pattern) (b0 :: t) = some b0 :=
        @List.find?_cons_of_pos Behavior (fun b => matches_pattern name b.pattern) b0 t hm
      rw [hstep] at h
      rw [applyBehaviors, if_pos hm, Option.some_inj.mp h]
    · have hstep : List.find? (fun b => matches_pattern name b.pattern) (b0 :: t)
          = List.find? (fun b => matches_pattern name b.pattern) t :=
        @List.find?_cons_of_neg Behavior (fun b => matches_pattern name b.pattern) b0 t hm
      rw [hstep] at h
      rw [applyBehaviors, if_neg hm]
      exact ih b h

theorem apply_style_no_space (name : List Char) (st : NamingStyle) :
    ∀ c ∈ apply_style name st, c ≠ ' ' := by
  intro c hc
  cases st with
  | CamelCase =>
    have h := to_camel_case_chars c hc
    rw [isWordSep] at h
    simp only [Bool.or_eq_false_iff, beq_eq_false_iff_ne] at h
    exact h.1.1
  | SnakeCase =>
    have h := (to_snake_case_chars c hc).2
    rw [snakeDrop] at h
    simp only [Bool.or_eq_false_iff, beq_eq_false_iff_ne] at h
    exact h.1
  | KebabCase =>
    have h := (to_kebab_case_chars c hc).2
    rw [kebabDrop] at h
    simp only [Bool.or_eq_false_iff, beq_eq_false_iff_ne] at h
    exact h.1

theorem replaceSpaces_eq_self {s : List Char} (h : ∀ c ∈ s, c ≠ ' ') :
    replaceSpaces s = s := by
  rw [replaceSpaces]
  have hcong : ∀ c ∈ s, (if c == ' ' then '_' else c) = c := by
    intro c hc
    rw [if_neg]
    simp only [beq_iff_eq]
    exact h c hc
  rw [List.map_congr_left hcong, List.map_id']

/-- C3: when some behavior matches (and the path is not detected as
exe/package), the base result is exactly the first matching behavior's style
applied to the name; the space-replacement pass that follows is provably the
identity there, because no style output contains a space. -/
theorem c3_style_and_space_replacement_exclusive (name : List Char) (config : Config)
    (b : Behavior)
    (hfind : config.behaviors.find? (fun b => matches_pattern name b.pattern) = some b) :
    baseResult name config false = apply_style name b.style := by
  rw [baseResult_false_eq, applyBehaviors_eq_of_find? config.behaviors b hfind]
  by_cases hr : config.replace_spaces = true
  · rw [if_pos hr, replaceSpaces_eq_self (apply_style_no_space name b.style)]
  · rw [if_neg hr]

/-- C3 witness: a lone-wildcard snake_case behavior matches "A B" and wins
over space replacement even though `replace_spaces` is true. -/
theorem c3_style_and_space_replacement_exclusive_witness :
    ((Config.mk true [Behavior.mk [ '*'] NamingStyle.SnakeCase]).behaviors.find?
        (fun b => matches_pattern [ 'A', ' ', 'B'] b.pattern)
      = some (Behavior.mk [ '*'] NamingStyle.SnakeCase)) ∧
    baseResult [ 'A', ' ', 'B'] (Config.mk true [Behavior.mk [ '*'] NamingStyle.SnakeCase]) false
      = apply_style [ 'A', ' ', 'B'] NamingStyle.SnakeCase :=
  ⟨by decide,
   c3_style_and_space_replacement_exclusive [ 'A', ' ', 'B']
     (Config.mk true [Behavior.mk [ '*'] NamingStyle.SnakeCase])
     (Behavior.mk [ '*'] NamingStyle.SnakeCase) (by decide)⟩

/-- C4: when the path is detected as exe/package, the base result is
kebab-case of the name for every configuration, so the configured behaviors
(matching or not) are never consulted. -/
theorem c4_detection_precedence (name : List Char) (config : Config) :
    baseResult name config true = to_kebab_case name ∧
    (∀ config2 : Config, baseResult name config true = baseResult name config2 true) :=
  ⟨rfl, fun _ => rfl⟩

theorem applyBehaviors_append_skip {name : List Char} :
    ∀ (l1 rest : List Behavior), (∀ b ∈ l1, matches_pattern name b.pattern = false) →
      applyBehaviors name (l1 ++ rest) = applyBehaviors name rest := by
  intro l1
  induction l1 with
  | nil => intro rest _; rfl
  | cons b0 t ih =>
    intro rest hpre
    rw [List.cons_append, applyBehaviors,
      if_neg (by rw [hpre b0 (List.mem_cons_self b0 t)]; simp)]
    exact ih rest (fun b hb => hpre b (List.mem_cons_of_mem b0 hb))

/-- C5: first-match-wins.  If the behavior list decomposes as
`l1 ++ b1 :: l2 ++ b2 :: l3` with nothing in `l1` matching and both `b1` and
`b2` matching, the base result applies the earlier behavior's style and
ignores the later one. -/
theorem c5_first_match_wins (name : List Char) (config : Config)
    (l1 l2 l3 : List Behavior) (b1 b2 : Behavior)
    (hcfg : config.behaviors = l1 ++ b1 :: (l2 ++ b2 :: l3))
    (hpre : ∀ b ∈ l1, matches_pattern name b.pattern = false)
    (h1 : matches_pattern name b1.pattern = true)
    (_h2 : matches_pattern name b2.pattern = true) :
    baseResult name config false = apply_style name b1.style := by
  rw [baseResult_false_eq, hcfg, applyBehaviors_append_skip l1 _ hpre,
    applyBehaviors, if_pos h1]
  by_cases hr : config.replace_spaces = true
  · rw [if_pos hr, replaceSpaces_eq_self (apply_style_no_space name b1.style)]
  · rw [if_neg hr]

/-- C5 witness: both a wildcard snake_case behavior and an "A"-substring
kebab-case behavior match "A B"; the earlier (snake_case) one is applied. -/
theorem c5_first_match_wins_witness :
    matches_pattern [ 'A', ' ', 'B'] [ '*'] = true ∧
    matches_pattern [ 'A', ' ', 'B'] [ 'A'] = true ∧
    baseResult [ 'A', ' ', 'B']
        (Config.mk true
          [Behavior.mk [ '*'] NamingStyle.SnakeCase, Behavior.mk [ 'A'] NamingStyle.KebabCase])
        false
      = apply_style [ 'A', ' ', 'B'] NamingStyle.SnakeCase :=
  ⟨by decide, by decide,
   c5_first_match_wins [ 'A', ' ', 'B']
     (Config.mk true
       [Behavior.mk [ '*'] NamingStyle.SnakeCase, Behavior.mk [ 'A'] NamingStyle.KebabCase])
     [] [] [] (Behavior.mk [ '*'] NamingStyle.SnakeCase) (Behavior.mk [ 'A'] NamingStyle.KebabCase)
     rfl (by intro b hb; exact absurd hb (List.not_mem_nil b)) (by decide) (by decide)⟩

/-! Change detection and the timestamp path. -/

theorem format_filename_eq_fullResult (name : List Char) (config : Config)
    (isExePkg timestamp : Bool) (y m d : Nat) :
    format_filename name config isExePkg timestamp y m d =
      if fullResult name config isExePkg timestamp y m d ≠ name
      then some (fullResult name config isExePkg timestamp y m d)
      else none := rfl

/-- C7: `format_filename` returns a new name exactly when the computed result
differs from the input name, and the returned name is that computed result;
when they coincide it returns no change. -/
theorem c7_change_iff_differs (name : List Char) (config : Config)
    (isExePkg timestamp : Bool) (y m d : Nat) :
    (format_filename name config isExePkg timestamp y m d = none ↔
      fullResult name config isExePkg timestamp y m d = name) ∧
    ∀ r : List Char, format_filename name config isExePkg timestamp y m d = some r →
      r ≠ name ∧ r = fullResult name config isExePkg timestamp y m d := by
  rw [format_filename_eq_fullResult]
  by_cases hne : fullResult name config isExePkg timestamp y m d ≠ name
  · rw [if_pos hne]
    refine ⟨⟨fun h => absurd h (by simp), fun h => absurd h hne⟩, ?_⟩
    intro r hr
    have hrr := Option.some_inj.mp hr
    exact ⟨hrr ▸ hne, hrr.symm⟩
  · rw [if_neg hne]
    exact ⟨⟨fun _ => not_not.mp hne, fun _ => rfl⟩, fun r hr => absurd hr (by simp)⟩

/-- C7 witness: on "a b" with the default configuration (no behaviors,
`replace_spaces` on, no detection, no timestamp) the function returns
"a_b", which differs from the input and equals the computed result. -/
theorem c7_change_iff_differs_witness :
    [ 'a', '_', 'b'] ≠ [ 'a', ' ', 'b'] ∧
    [ 'a', '_', 'b'] = fullResult [ 'a', ' ', 'b'] (Config.mk true []) false false 0 0 0 :=
  (c7_change_iff_differs [ 'a', ' ', 'b'] (Config.mk true []) false false 0 0 0).2
    [ 'a', '_', 'b'] (by decide)

/-! Digit counting: every base-name transform preserves the number of decimal
digit characters, while the timestamp marker always contributes some.  This
yields that the timestamp path always reports a change. -/

theorem digitChar_isDigit {k : Nat} (h : k < 10) : (Nat.digitChar k).isDigit = true := by
  interval_cases k <;> decide

theorem toDigitsCore_digits :
    ∀ (fuel n : Nat) (ds : List Char), (∀ c ∈ ds, c.isDigit = true) →
      ∀ c ∈ Nat.toDigitsCore 10 fuel n ds, c.isDigit = true := by
  intro fuel
  induction fuel with
  | zero => intro n ds hds c hc; exact hds c hc
  | succ f ih =>
    intro n ds hds c hc
    have hd : ∀ c ∈ (Nat.digitChar (n % 10) :: ds), c.isDigit = true := by
      intro x hx
      rcases List.mem_cons.mp hx with h' | h'
      · rw [h']; exact digitChar_isDigit (Nat.mod_lt n (by norm_num))
      · exact hds x h'
    rw [Nat.toDigitsCore] at hc
    by_cases hnz : n / 10 = 0
    · rw [if_pos hnz] at hc
      exact hd c hc
    · rw [if_neg hnz] at hc
      exact ih (n / 10) _ hd c hc

theorem natToChars_digits (n : Nat) : ∀ c ∈ natToChars n, c.isDigit = true :=
  toDigitsCore_digits (n + 1) n [] (fun c hc => absurd hc (List.not_mem_nil c))

theorem countP_isDigit_padTo (k : Nat) (l : List Char) (h : ∀ c ∈ l, c.isDigit = true) :
    (padTo k l).countP (fun c => c.isDigit) = (k - l.length) + l.length := by
  rw [padTo, List.countP_append]
  have h1 : (List.replicate (k - l.length) '0').countP (fun c => c.isDigit)
      = (List.replicate (k - l.length) '0').length := by
    rw [List.countP_eq_length]
    intro a ha
    rw [List.eq_of_mem_replicate ha]
    decide
  have h2 : l.countP (fun c => c.isDigit) = l.length := by
    rw [List.countP_eq_length]
    exact h
  rw [h1, h2, List.length_replicate]

theorem ts_digit_pos (y m d : Nat) :
    0 < (get_timestamp_str y m d).countP (fun c => c.isDigit) := by
  rw [get_timestamp_str]
  simp only [List.countP_append]
  have h4 := countP_isDigit_padTo 4 (natToChars y) (natToChars_digits y)
  omega

theorem countP_isDigit_sepPush (sep : Char) (r : List Char) (hsep : sep.isDigit = false) :
    (sepPush sep r).countP (fun c => c.isDigit) = r.countP (fun c => c.isDigit) := by
  rw [sepPush]
  by_cases hg : r ≠ [] ∧ r.getLast? ≠ some sep
  · rw [if_pos hg, List.countP_append]
    simp [List.countP_cons, hsep]
  · rw [if_neg hg]

theorem countP_isDigit_caseStep (sep : Char) (isDrop : Char → Bool) (r : List Char)
    (ch : Char) (hsep : sep.isDigit = false) (hdrop : isDrop ch = true → ch.isDigit = false) :
    (caseStep sep isDrop r ch).countP (fun c => c.isDigit)
      = r.countP (fun c => c.isDigit) + (if ch.isDigit then 1 else 0) := by
  rw [caseStep]
  by_cases hu : ch.isUpper
  · rw [if_pos hu, List.countP_append, countP_isDigit_sepPush sep r hsep]
    simp [List.countP_cons, isDigit_toLower]
  · rw [if_neg hu]
    by_cases hd : isDrop ch
    · rw [if_pos hd, countP_isDigit_sepPush sep r hsep, hdrop hd]
      simp
    · rw [if_neg hd, List.countP_append]
      simp [List.countP_cons]

theorem countP_isDigit_foldl_caseStep (sep : Char) (isDrop : Char → Bool)
    (hsep : sep.isDigit = false) (hdrop : ∀ c : Char, isDrop c = true → c.isDigit = false) :
    ∀ (s acc : List Char),
      (List.foldl (caseStep sep isDrop) acc s).countP (fun c => c.isDigit)
        = acc.countP (fun c => c.isDigit) + s.countP (fun c => c.isDigit) := by
  intro s
  induction s with
  | nil => intro acc; simp
  | cons ch t ih =>
    intro acc
    rw [List.foldl_cons, ih, countP_isDigit_caseStep sep isDrop acc ch hsep (hdrop ch),
      List.countP_cons]
    omega

theorem countP_isDigit_snake (s : List Char) :
    (to_snake_case s).countP (fun c => c.isDigit) = s.countP (fun c => c.isDigit) := by
  rw [to_snake_case, countP_isDigit_foldl_caseStep '_' snakeDrop (by decide) ?_ s []]
  · simp
  · intro c hc
    rw [snakeDrop] at hc
    rcases Bool.or_eq_true_iff.mp hc with h' | h' <;>
      rw [beq_iff_eq.mp h'] <;> decide

theorem countP_isDigit_kebab (s : List Char) :
    (to_kebab_case s).countP (fun c => c.isDigit) = s.countP (fun c => c.isDigit) := by
  rw [to_kebab_case, countP_isDigit_foldl_caseStep '-' kebabDrop (by decide) ?_ s []]
  · simp
  · intro c hc
    rw [kebabDrop] at hc
    rcases Bool.or_eq_true_iff.mp hc with h' | h' <;>
      rw [beq_iff_eq.mp h'] <;> decide

theorem countP_isDigit_capWord (w : List Char) :
    (capWord w).countP (fun c => c.isDigit) = w.countP (fun c => c.isDigit) := by
  cases w with
  | nil => rfl
  | cons c t =>
    rw [capWord, List.countP_cons, List.countP_cons, isDigit_toUpper]

theorem countP_isDigit_mapLower (w : List Char) :
    (w.map Char.toLower).countP (fun c => c.isDigit) = w.countP (fun c => c.isDigit) := by
  rw [List.countP_map]
  refine List.countP_congr ?_
  intro x _
  simp only [Function.comp_apply, isDigit_toLower]

theorem countP_isDigit_camelWords :
    ∀ (ws : List (List Char)) (i : Nat),
      (camelWords i ws).countP (fun c => c.isDigit)
        = (ws.map (fun w => w.countP (fun c => c.isDigit))).sum := by
  intro ws
  induction ws with
  | nil => intro i; simp [camelWords]
  | cons w t ih =>
    intro i
    rw [camelWords, List.countP_append, ih (i + 1), List.map_cons, List.sum_cons]
    congr 1
    by_cases hw : w = []
    · rw [if_pos hw, hw]
    · rw [if_neg hw]
      by_cases hi : i = 0
      · rw [if_pos hi, countP_isDigit_mapLower]
      · rw [if_neg hi, countP_isDigit_capWord]

theorem splitP_countP_sum (p q : Char → Bool) (hpq : ∀ c, p c = true → q c = false) :
    ∀ s : List Char,
      ((splitP p s).map (fun w => w.countP q)).sum = s.countP q := by
  intro s
  induction s with
  | nil => simp [splitP]
  | cons c rest ih =>
    rw [splitP]
    by_cases hc : p c = true
    · rw [if_pos hc, List.map_cons, List.sum_cons, ih, List.countP_cons_of_neg]
      · simp
      · rw [hpq c hc]
        simp
    · rw [if_neg hc]
      obtain ⟨w, ws, hr⟩ := List.exists_cons_of_ne_nil (splitP_ne_nil p rest)
      rw [hr]
      simp only [List.headI, List.tail, List.map_cons, List.sum_cons]
      rw [hr, List.map_cons, List.sum_cons] at ih
      rw [List.countP_cons, List.countP_cons]
      omega

theorem countP_isDigit_camel (s : List Char) :
    (to_camel_case s).countP (fun c => c.isDigit) = s.countP (fun c => c.isDigit) := by
  rw [to_camel_case, countP_isDigit_camelWords]
  refine splitP_countP_sum isWordSep (fun c => c.isDigit) ?_ s
  intro c hc
  rw [isWordSep] at hc
  rcases Bool.or_eq_true_iff.mp hc with h' | h'
  · rcases Bool.or_eq_true_iff.mp h' with h'' | h'' <;> rw [beq_iff_eq.mp h''] <;> decide
  · rw [beq_iff_eq.mp h']
    decide

theorem countP_isDigit_apply_style (name : List Char) (st : NamingStyle) :
    (apply_style name st).countP (fun c => c.isDigit) = name.countP (fun c => c.isDigit) := by
  cases st with
  | CamelCase => exact countP_isDigit_camel name
  | SnakeCase => exact countP_isDigit_snake name
  | KebabCase => exact countP_isDigit_kebab name

theorem countP_isDigit_applyBehaviors (name : List Char) :
    ∀ bs : List Behavior,
      (applyBehaviors name bs).countP (fun c => c.isDigit)
        = name.countP (fun c => c.isDigit) := by
  intro bs
  induction bs with
  | nil => rfl
  | cons b t ih =>
    rw [applyBehaviors]
    by_cases hm : matches_pattern name b.pattern = true
    · rw [if_pos hm, countP_isDigit_apply_style]
    · rw [if_neg hm]
      exact ih

theorem countP_isDigit_replaceSpaces (s : List Char) :
    (replaceSpaces s).countP (fun c => c.isDigit) = s.countP (fun c => c.isDigit) := by
  rw [replaceSpaces, List.countP_map]
  refine List.countP_congr ?_
  intro x _
  simp only [Function.comp_apply]
  by_cases hx : x == ' '
  · rw [if_pos hx, beq_iff_eq.mp hx]
    decide
  · rw [if_neg hx]

theorem countP_isDigit_baseResult (name : List Char) (config : Config) (isExePkg : Bool) :
    (baseResult name config isExePkg).countP (fun c => c.isDigit)
      = name.countP (fun c => c.isDigit) := by
  cases isExePkg with
  | true => rw [baseResult_true_eq, countP_isDigit_kebab]
  | false =>
    rw [baseResult_false_eq]
    by_cases hr : config.replace_spaces = true
    · rw [if_pos hr, countP_isDigit_replaceSpaces, countP_isDigit_applyBehaviors]
    · rw [if_neg hr, countP_isDigit_applyBehaviors]

/-- C8: with the timestamp flag set, `format_filename` always returns the
timestamp marker prepended to the base result of the detection / behavior /
space-replacement steps, and in particular always reports a change: the
marker contributes digit characters while every base transform preserves the
digit count, so the prepended result can never equal the input name. -/
theorem c8_timestamp_composability (name : List Char) (config : Config) (isExePkg : Bool)
    (y m d : Nat) :
    format_filename name config isExePkg true y m d
      = some (get_timestamp_str y m d ++ baseResult name config isExePkg) := by
  rw [format_filename_eq_fullResult]
  have hfull : fullResult name config isExePkg true y m d
      = get_timestamp_str y m d ++ baseResult name config isExePkg := rfl
  have hne : fullResult name config isExePkg true y m d ≠ name := by
    rw [hfull]
    intro he
    have hcount := congrArg (fun l => List.countP (fun c => c.isDigit) l) he
    simp only [List.countP_append] at hcount
    rw [countP_isDigit_baseResult] at hcount
    have hpos := ts_digit_pos y m d
    omega
  rw [if_pos hne, hfull]
